import Mathlib

/-!
# Cache-replacement policies: a shallow embedding

This file embeds the three eviction-policy engines of the cache simulator
(`cache_simulator.h`): LRU, FIFO and LFU, together with the driver's notion
of a run over an access sequence, and proves the specified properties.

Modelling notes, from the C++ source:
* Keys are `String`s, as in the source.
* `LRUCache` keeps `lru_list` (most-recently-used first).  The C++
  `cache_map` is an iterator index into that list used only for O(1)
  lookup/splice; key membership in `lru_list` is exactly membership in the
  index, so residency is modelled as list membership and the hit-path
  `splice` to the front becomes erase-then-cons of the unique occurrence.
* `FIFOCache` keeps `fifo_queue` (front = oldest).  The C++ `cache_set`
  mirrors the queue's members, so residency is queue membership.
* `LFUCache` keeps all three structures of the source: the directory
  `cache_map` (key → frequency; the C++ value also stores the iterator to
  the key's bucket position, which here is the unique occurrence of the key
  in the bucket named by its frequency), the frequency buckets `freq_map`
  (a total function, empty list by default, exactly the behaviour of
  `unordered_map::operator[]`), and `min_frequency`.
* The counters `hits`/`misses` and the capacity coercion
  (`if (capacity == 0) capacity = 1;` in the `ICachePolicy` constructor)
  are embedded as written.
* In the LFU eviction branch the C++ calls `back()`/`pop_back()` on the
  minimum-frequency bucket, which is undefined when that bucket is empty;
  the embedding matches on `getLast?` and leaves the state unchanged in the
  (unreachable, see `lfu_inv_run`) empty case.
-/

namespace CacheSim

/-! ## Directory (association list) primitives for the LFU `cache_map` -/

/-- Lookup of a key's value in an association list
(`unordered_map::find`). -/
def lookupFreq : List (String × Nat) → String → Option Nat
  | [], _ => none
  | (k, f) :: tl, key => if k = key then some f else lookupFreq tl key

/-- Overwrite the value stored for a key that is present
(`entry.first = new_freq` through the iterator). -/
def setFreq : List (String × Nat) → String → Nat → List (String × Nat)
  | [], _, _ => []
  | (k, f) :: tl, key, nf =>
      if k = key then (k, nf) :: tl else (k, f) :: setFreq tl key nf

/-- Remove a key's entry (`unordered_map::erase`). -/
def eraseKey : List (String × Nat) → String → List (String × Nat)
  | [], _ => []
  | (k, f) :: tl, key => if k = key then tl else (k, f) :: eraseKey tl key

/-! ## LRU -/

/-- State of `LRUCache`: the recency list `lru_list` (MRU first) plus the
inherited `capacity`, `hits`, `misses` of `ICachePolicy`. -/
structure LRUCache where
  capacity : Nat
  hits : Nat
  misses : Nat
  lru_list : List String
deriving Repr, DecidableEq

/-- `LRUCache(cap)` via `ICachePolicy(cap)`: zero capacity is coerced
to one. -/
def LRUCache.init (cap : Nat) : LRUCache :=
  { capacity := if cap = 0 then 1 else cap, hits := 0, misses := 0,
    lru_list := [] }

/-- `LRUCache::access`. -/
def LRUCache.access (s : LRUCache) (key : String) : LRUCache :=
  if key ∈ s.lru_list then
    -- hit: splice the key's node to the front
    { s with hits := s.hits + 1, lru_list := key :: s.lru_list.erase key }
  else
    -- miss: evict the back if full, then push the key at the front
    let l1 := if s.lru_list.length ≥ s.capacity then s.lru_list.dropLast
              else s.lru_list
    { s with misses := s.misses + 1, lru_list := key :: l1 }

/-! ## FIFO -/

/-- State of `FIFOCache`: the queue (front = oldest) plus the inherited
counters. -/
structure FIFOCache where
  capacity : Nat
  hits : Nat
  misses : Nat
  fifo_queue : List String
deriving Repr, DecidableEq

/-- `FIFOCache(cap)` via `ICachePolicy(cap)`. -/
def FIFOCache.init (cap : Nat) : FIFOCache :=
  { capacity := if cap = 0 then 1 else cap, hits := 0, misses := 0,
    fifo_queue := [] }

/-- `FIFOCache::access`. -/
def FIFOCache.access (s : FIFOCache) (key : String) : FIFOCache :=
  if key ∈ s.fifo_queue then
    -- hit: no reordering for FIFO
    { s with hits := s.hits + 1 }
  else
    -- miss: pop the front if full, then push at the back
    let q1 := if s.fifo_queue.length ≥ s.capacity then s.fifo_queue.tail
              else s.fifo_queue
    { s with misses := s.misses + 1, fifo_queue := q1 ++ [key] }

/-! ## LFU -/

/-- State of `LFUCache`: directory, frequency buckets (each MRU first),
eviction pointer, inherited counters. -/
structure LFUCache where
  capacity : Nat
  hits : Nat
  misses : Nat
  cache_map : List (String × Nat)
  freq_map : Nat → List String
  min_frequency : Nat

/-- `LFUCache(cap)`: `min_frequency(0)` and `ICachePolicy(cap)`. -/
def LFUCache.init (cap : Nat) : LFUCache :=
  { capacity := if cap = 0 then 1 else cap, hits := 0, misses := 0,
    cache_map := [], freq_map := fun _ => [], min_frequency := 0 }

/-- `LFUCache::update_frequency`, given the key's current frequency
(`entry.first`): erase from the old bucket, push onto the front of the new
bucket, rewrite the directory entry, and advance `min_frequency` when the
old bucket emptied at the minimum. -/
def LFUCache.update_frequency (s : LFUCache) (key : String) (old_freq : Nat) :
    LFUCache :=
  let new_freq := old_freq + 1
  let fm1 : Nat → List String := fun f =>
    if f = old_freq then (s.freq_map old_freq).erase key else s.freq_map f
  let fm2 : Nat → List String := fun f =>
    if f = new_freq then key :: fm1 new_freq else fm1 f
  { s with
    cache_map := setFreq s.cache_map key new_freq
    freq_map := fm2
    min_frequency :=
      if (fm2 old_freq).isEmpty ∧ old_freq = s.min_frequency then new_freq
      else s.min_frequency }

/-- `LFUCache::access`. -/
def LFUCache.access (s : LFUCache) (key : String) : LFUCache :=
  match lookupFreq s.cache_map key with
  | some f =>
      -- hit: bump the frequency
      ({ s with hits := s.hits + 1 } : LFUCache).update_frequency key f
  | none =>
      -- miss: evict from the minimum-frequency bucket if full, then insert
      -- the key with frequency 1 and reset min_frequency to 1
      let s1 : LFUCache := { s with misses := s.misses + 1 }
      let s2 : LFUCache :=
        if s1.cache_map.length ≥ s1.capacity then
          match (s1.freq_map s1.min_frequency).getLast? with
          | some lfu_key =>
              { s1 with
                freq_map := fun f =>
                  if f = s1.min_frequency then
                    (s1.freq_map s1.min_frequency).dropLast
                  else s1.freq_map f
                cache_map := eraseKey s1.cache_map lfu_key }
          | none => s1   -- `back()` on an empty bucket: unreachable (UB in C++)
        else s1
      { s2 with
        cache_map := (key, 1) :: s2.cache_map
        freq_map := fun f => if f = 1 then key :: s2.freq_map 1 else s2.freq_map f
        min_frequency := 1 }

/-! ## The driver (`CacheSimulator::run`) -/

/-- Feed every key of the sequence through `LRUCache::access`. -/
def runLRU (cap : Nat) (seq : List String) : LRUCache :=
  seq.foldl LRUCache.access (LRUCache.init cap)

/-- Feed every key of the sequence through `FIFOCache::access`. -/
def runFIFO (cap : Nat) (seq : List String) : FIFOCache :=
  seq.foldl FIFOCache.access (FIFOCache.init cap)

/-- Feed every key of the sequence through `LFUCache::access`. -/
def runLFU (cap : Nat) (seq : List String) : LFUCache :=
  seq.foldl LFUCache.access (LFUCache.init cap)

/-! ## Hit/miss traces
The outcome of each access is decided by the same membership test the
`access` method performs, recorded before the state is updated. -/

/-- Outcomes of a sequence of LRU accesses from a given state. -/
def traceFromLRU (s : LRUCache) : List String → List Bool
  | [] => []
  | k :: tl => decide (k ∈ s.lru_list) :: traceFromLRU (s.access k) tl

/-- Outcomes of a sequence of FIFO accesses from a given state. -/
def traceFromFIFO (s : FIFOCache) : List String → List Bool
  | [] => []
  | k :: tl => decide (k ∈ s.fifo_queue) :: traceFromFIFO (s.access k) tl

/-- Outcomes of a sequence of LFU accesses from a given state. -/
def traceFromLFU (s : LFUCache) : List String → List Bool
  | [] => []
  | k :: tl => (lookupFreq s.cache_map k).isSome :: traceFromLFU (s.access k) tl

/-- Hit/miss pattern of an LRU run (`true` = hit). -/
def traceLRU (cap : Nat) (seq : List String) : List Bool :=
  traceFromLRU (LRUCache.init cap) seq

/-- Hit/miss pattern of a FIFO run (`true` = hit). -/
def traceFIFO (cap : Nat) (seq : List String) : List Bool :=
  traceFromFIFO (FIFOCache.init cap) seq

/-- Hit/miss pattern of an LFU run (`true` = hit). -/
def traceLFU (cap : Nat) (seq : List String) : List Bool :=
  traceFromLFU (LFUCache.init cap) seq

/-- Resident keys of an LFU state, as recorded by the directory. -/
def LFUCache.residents (s : LFUCache) : List String :=
  s.cache_map.map Prod.fst

/-- Two key lists name the same set of keys. -/
def sameKeySet (l1 l2 : List String) : Bool :=
  l1.all (fun k => l2.contains k) && l2.all (fun k => l1.contains k)

/-- The hardcoded demonstration sequence of `main.cpp`. -/
def demoSeq : List String :=
  ["A", "B", "C", "D", "A", "E", "A", "B", "A", "C", "D", "E", "D", "C"]

/-! ## Recency: the time of the most recent touch of a key in a sequence -/

/-- Index of the last occurrence of a key in an access sequence, if any. -/
def lastTouch : List String → String → Option Nat
  | [], _ => none
  | a :: tl, k =>
      match lastTouch tl k with
      | some i => some (i + 1)
      | none => if a = k then some 0 else none

/-- Total version of `lastTouch` (0 for keys never accessed). -/
def ltT (seq : List String) (k : String) : Nat :=
  (lastTouch seq k).getD 0

/-! ## Lemmas about the directory primitives -/

theorem lookupFreq_eq_none (cm : List (String × Nat)) (key : String) :
    lookupFreq cm key = none ↔ key ∉ cm.map Prod.fst := by
  induction cm with
  | nil => simp [lookupFreq]
  | cons p tl ih =>
      obtain ⟨k, f⟩ := p
      by_cases h : k = key
      · subst h; simp [lookupFreq]
      · simp [lookupFreq, h, ih, Ne.symm h]

theorem lookupFreq_isSome (cm : List (String × Nat)) (key : String) :
    (lookupFreq cm key).isSome = true ↔ key ∈ cm.map Prod.fst := by
  rcases h : lookupFreq cm key with _ | f
  · simpa using (lookupFreq_eq_none cm key).1 h
  · simp only [Option.isSome_some, true_iff]
    by_contra hmem
    rw [← lookupFreq_eq_none cm key] at hmem
    rw [h] at hmem
    exact Option.noConfusion hmem

theorem setFreq_map_fst (cm : List (String × Nat)) (key : String) (nf : Nat) :
    (setFreq cm key nf).map Prod.fst = cm.map Prod.fst := by
  induction cm with
  | nil => rfl
  | cons p tl ih =>
      obtain ⟨k, f⟩ := p
      by_cases h : k = key <;> simp [setFreq, h, ih]

theorem setFreq_length (cm : List (String × Nat)) (key : String) (nf : Nat) :
    (setFreq cm key nf).length = cm.length := by
  induction cm with
  | nil => rfl
  | cons p tl ih =>
      obtain ⟨k, f⟩ := p
      by_cases h : k = key <;> simp [setFreq, h, ih]

theorem lookupFreq_setFreq_self (cm : List (String × Nat)) (key : String)
    (nf f : Nat) (h : lookupFreq cm key = some f) :
    lookupFreq (setFreq cm key nf) key = some nf := by
  induction cm with
  | nil => exact absurd h (by simp [lookupFreq])
  | cons p tl ih =>
      obtain ⟨k, g⟩ := p
      by_cases hk : k = key
      · simp [setFreq, lookupFreq, hk]
      · simp only [lookupFreq, hk, if_false] at h
        simp [setFreq, lookupFreq, hk, ih h]

theorem lookupFreq_setFreq_ne (cm : List (String × Nat)) (key j : String)
    (nf : Nat) (h : j ≠ key) :
    lookupFreq (setFreq cm key nf) j = lookupFreq cm j := by
  induction cm with
  | nil => rfl
  | cons p tl ih =>
      obtain ⟨k, g⟩ := p
      by_cases hk : k = key
      · subst hk
        simp [setFreq, lookupFreq, Ne.symm h]
      · by_cases hj : k = j <;> simp [setFreq, lookupFreq, hk, hj, h, ih]

theorem eraseKey_sublist (cm : List (String × Nat)) (key : String) :
    (eraseKey cm key).Sublist cm := by
  induction cm with
  | nil => simp [eraseKey]
  | cons p tl ih =>
      obtain ⟨k, f⟩ := p
      by_cases h : k = key
      · simp [eraseKey, h]
      · simpa [eraseKey, h] using ih.cons₂ (k, f)

theorem lookupFreq_eraseKey_ne (cm : List (String × Nat)) (key j : String)
    (h : j ≠ key) :
    lookupFreq (eraseKey cm key) j = lookupFreq cm j := by
  induction cm with
  | nil => rfl
  | cons p tl ih =>
      obtain ⟨k, f⟩ := p
      by_cases hk : k = key
      · subst hk
        simp [eraseKey, lookupFreq, Ne.symm h]
      · by_cases hj : k = j <;> simp [eraseKey, lookupFreq, hk, hj, h, ih]

theorem lookupFreq_eraseKey_self (cm : List (String × Nat)) (key : String)
    (hnd : (cm.map Prod.fst).Nodup) :
    lookupFreq (eraseKey cm key) key = none := by
  induction cm with
  | nil => rfl
  | cons p tl ih =>
      obtain ⟨k, f⟩ := p
      simp only [List.map_cons, List.nodup_cons] at hnd
      by_cases h : k = key
      · subst h
        simp only [eraseKey, if_pos rfl]
        rw [lookupFreq_eq_none]
        exact hnd.1
      · simp [eraseKey, lookupFreq, h, ih hnd.2]

theorem eraseKey_length (cm : List (String × Nat)) (key : String)
    (h : (lookupFreq cm key).isSome = true) :
    (eraseKey cm key).length + 1 = cm.length := by
  induction cm with
  | nil => simp [lookupFreq] at h
  | cons p tl ih =>
      obtain ⟨k, f⟩ := p
      by_cases hk : k = key
      · simp [eraseKey, hk]
      · simp only [lookupFreq, hk, if_false] at h
        simp [eraseKey, hk, ih h]

/-! ## Lemmas about `lastTouch` -/

theorem lastTouch_append (seq : List String) (j k : String) :
    lastTouch (seq ++ [k]) j =
      if j = k then some seq.length else lastTouch seq j := by
  induction seq with
  | nil => simp [lastTouch, eq_comm]
  | cons a tl ih =>
      by_cases h : j = k
      · subst h
        simp only [if_pos rfl] at ih ⊢
        simp [lastTouch, ih]
      · simp only [if_neg h] at ih ⊢
        simp [lastTouch, ih, h]

theorem lastTouch_lt_length (seq : List String) (k : String) (i : Nat)
    (h : lastTouch seq k = some i) : i < seq.length := by
  induction seq generalizing i with
  | nil => exact absurd h (by simp [lastTouch])
  | cons a tl ih =>
      simp only [lastTouch] at h
      cases htl : lastTouch tl k with
      | none =>
          rw [htl] at h
          by_cases ha : a = k
          · simp [ha] at h
            simp only [List.length_cons]
            omega
          · simp [ha] at h
      | some m =>
          rw [htl] at h
          simp only [Option.some.injEq] at h
          subst h
          exact Nat.succ_lt_succ (ih m htl)

theorem ltT_append_self (seq : List String) (k : String) :
    ltT (seq ++ [k]) k = seq.length := by
  simp [ltT, lastTouch_append]

theorem ltT_append_ne (seq : List String) (j k : String) (h : j ≠ k) :
    ltT (seq ++ [k]) j = ltT seq j := by
  simp [ltT, lastTouch_append, h]

theorem ltT_lt_length (seq : List String) (j : String)
    (h : (lastTouch seq j).isSome = true) : ltT seq j < seq.length := by
  rcases hj : lastTouch seq j with _ | i
  · rw [hj] at h; exact absurd h (by simp)
  · simpa [ltT, hj] using lastTouch_lt_length seq j i hj

/-! ## Characterizations of the three branches of `LFUCache.access` -/

theorem update_frequency_eq (s : LFUCache) (key : String) (f0 : Nat) :
    s.update_frequency key f0 =
      { s with
        cache_map := setFreq s.cache_map key (f0 + 1)
        freq_map := fun f =>
          if f = f0 + 1 then key :: s.freq_map (f0 + 1)
          else if f = f0 then (s.freq_map f0).erase key
          else s.freq_map f
        min_frequency :=
          if ((s.freq_map f0).erase key).isEmpty ∧ f0 = s.min_frequency
          then f0 + 1 else s.min_frequency } := by
  have h1 : ¬ (f0 + 1 = f0) := Nat.succ_ne_self f0
  have h0 : ¬ (f0 = f0 + 1) := fun h => h1 h.symm
  simp only [LFUCache.update_frequency]
  congr 1
  · funext f
    by_cases ha : f = f0 + 1
    · simp [ha, h1]
    · by_cases hb : f = f0 <;> simp [ha, hb, h0, h1]
  · simp [h0, h1]

theorem access_hit_eq (s : LFUCache) (key : String) (f0 : Nat)
    (h : lookupFreq s.cache_map key = some f0) :
    s.access key =
      LFUCache.update_frequency { s with hits := s.hits + 1 } key f0 := by
  simp only [LFUCache.access, h]

theorem access_miss_noevict_eq (s : LFUCache) (key : String)
    (h : lookupFreq s.cache_map key = none)
    (hlen : ¬ s.capacity ≤ s.cache_map.length) :
    s.access key =
      { s with misses := s.misses + 1
               cache_map := (key, 1) :: s.cache_map
               freq_map := fun f =>
                 if f = 1 then key :: s.freq_map 1 else s.freq_map f
               min_frequency := 1 } := by
  simp only [LFUCache.access, h, ge_iff_le]
  rw [if_neg hlen]

theorem access_miss_evict_eq (s : LFUCache) (key e : String)
    (h : lookupFreq s.cache_map key = none)
    (hlen : s.capacity ≤ s.cache_map.length)
    (hlast : (s.freq_map s.min_frequency).getLast? = some e) :
    s.access key =
      { s with misses := s.misses + 1
               cache_map := (key, 1) :: eraseKey s.cache_map e
               freq_map := fun f =>
                 if f = 1 then
                   key :: (if (1 : Nat) = s.min_frequency
                           then (s.freq_map s.min_frequency).dropLast
                           else s.freq_map 1)
                 else if f = s.min_frequency then
                   (s.freq_map s.min_frequency).dropLast
                 else s.freq_map f
               min_frequency := 1 } := by
  simp only [LFUCache.access, h, ge_iff_le]
  rw [if_pos hlen, hlast]

/-! ## The reachable-state invariant of the LFU structures

`LFUInv seq s` collects everything that holds of the LFU state after
running the access sequence `seq` from an empty cache: well-formedness of
the directory, the bucket/directory consistency, validity of the
minimum-frequency pointer, and the fact that every bucket is ordered by
strictly decreasing last-touch time (MRU first). -/

structure LFUInv (seq : List String) (s : LFUCache) : Prop where
  keys_nodup : (s.cache_map.map Prod.fst).Nodup
  cap_pos : 1 ≤ s.capacity
  size_le : s.cache_map.length ≤ s.capacity
  freq_pos : ∀ k f, lookupFreq s.cache_map k = some f → 1 ≤ f
  bucket_mem : ∀ f k, k ∈ s.freq_map f → lookupFreq s.cache_map k = some f
  mem_bucket : ∀ k f, lookupFreq s.cache_map k = some f → k ∈ s.freq_map f
  bucket_nodup : ∀ f, (s.freq_map f).Nodup
  min_le : ∀ k f, lookupFreq s.cache_map k = some f → s.min_frequency ≤ f
  min_bucket : s.cache_map ≠ [] → s.freq_map s.min_frequency ≠ []
  touched : ∀ k f, lookupFreq s.cache_map k = some f →
    (lastTouch seq k).isSome = true
  recency : ∀ f, (s.freq_map f).Pairwise (fun a b => ltT seq b < ltT seq a)

theorem lfu_inv_init (cap : Nat) : LFUInv [] (LFUCache.init cap) := by
  have hcap : 1 ≤ (LFUCache.init cap).capacity := by
    simp only [LFUCache.init]
    split <;> omega
  refine ⟨?_, hcap, ?_, ?_, ?_, ?_, ?_, ?_, ?_, ?_, ?_⟩ <;>
    simp [LFUCache.init, lookupFreq]

theorem lfu_inv_hit (seq : List String) (s : LFUCache) (k : String) (f0 : Nat)
    (I : LFUInv seq s) (hk : lookupFreq s.cache_map k = some f0) :
    LFUInv (seq ++ [k]) (s.access k) := by
  rw [access_hit_eq s k f0 hk, update_frequency_eq]
  have hne10 : f0 + 1 ≠ f0 := Nat.succ_ne_self f0
  have hlkk : lookupFreq (setFreq s.cache_map k (f0 + 1)) k = some (f0 + 1) :=
    lookupFreq_setFreq_self s.cache_map k (f0 + 1) f0 hk
  have hlk : ∀ j, j ≠ k →
      lookupFreq (setFreq s.cache_map k (f0 + 1)) j = lookupFreq s.cache_map j :=
    fun j hj => lookupFreq_setFreq_ne s.cache_map k j (f0 + 1) hj
  have hT : ∀ j g, lookupFreq s.cache_map j = some g → j ≠ k →
      ltT (seq ++ [k]) j = ltT seq j := fun j _ _ hj => ltT_append_ne seq j k hj
  have hTlt : ∀ j g, lookupFreq s.cache_map j = some g → j ≠ k →
      ltT (seq ++ [k]) j < ltT (seq ++ [k]) k := by
    intro j g hj hjk
    rw [ltT_append_self, hT j g hj hjk]
    exact ltT_lt_length seq j (I.touched j g hj)
  have hTrans : ∀ f, (∀ j, j ∈ s.freq_map f → j ≠ k) →
      (s.freq_map f).Pairwise
        (fun a b => ltT (seq ++ [k]) b < ltT (seq ++ [k]) a) := by
    intro f hne
    refine List.Pairwise.imp_of_mem ?_ (I.recency f)
    intro a b ha hb hab
    rw [ltT_append_ne seq a k (hne a ha), ltT_append_ne seq b k (hne b hb)]
    exact hab
  refine ⟨?_, ?_, ?_, ?_, ?_, ?_, ?_, ?_, ?_, ?_, ?_⟩
  · -- keys_nodup
    dsimp only
    rw [setFreq_map_fst]
    exact I.keys_nodup
  · exact I.cap_pos
  · -- size_le
    dsimp only
    rw [setFreq_length]
    exact I.size_le
  · -- freq_pos
    intro j g hj
    dsimp only at hj
    by_cases hjk : j = k
    · subst hjk
      rw [hlkk] at hj
      cases hj
      omega
    · rw [hlk j hjk] at hj
      exact I.freq_pos j g hj
  · -- bucket_mem
    intro f j hmem
    dsimp only at hmem ⊢
    by_cases h1 : f = f0 + 1
    · subst h1
      rw [if_pos rfl] at hmem
      rcases List.mem_cons.1 hmem with h | h
      · subst h; exact hlkk
      · have hj := I.bucket_mem (f0 + 1) j h
        have hjk : j ≠ k := by
          intro he; subst he
          rw [hk] at hj
          exact hne10 (Option.some.inj hj).symm
        rw [hlk j hjk]
        exact hj
    · rw [if_neg h1] at hmem
      by_cases h2 : f = f0
      · rw [if_pos h2] at hmem
        have hjk : j ≠ k := by
          intro he; subst he
          exact (I.bucket_nodup f0).not_mem_erase hmem
        have hj := I.bucket_mem f0 j (List.mem_of_mem_erase hmem)
        rw [hlk j hjk, h2]
        exact hj
      · rw [if_neg h2] at hmem
        have hj := I.bucket_mem f j hmem
        have hjk : j ≠ k := by
          intro he; subst he
          rw [hk] at hj
          exact h2 (Option.some.inj hj).symm
        rw [hlk j hjk]
        exact hj
  · -- mem_bucket
    intro j g hj
    dsimp only at hj ⊢
    by_cases hjk : j = k
    · subst hjk
      rw [hlkk] at hj
      cases hj
      rw [if_pos rfl]
      exact List.mem_cons_self _ _
    · rw [hlk j hjk] at hj
      have hmem := I.mem_bucket j g hj
      by_cases h1 : g = f0 + 1
      · subst h1
        rw [if_pos rfl]
        exact List.mem_cons_of_mem _ hmem
      · rw [if_neg h1]
        by_cases h2 : g = f0
        · rw [if_pos h2]
          exact (List.mem_erase_of_ne hjk).2 (h2 ▸ hmem)
        · rw [if_neg h2]
          exact hmem
  · -- bucket_nodup
    intro f
    dsimp only
    by_cases h1 : f = f0 + 1
    · subst h1
      rw [if_pos rfl]
      refine List.nodup_cons.2 ⟨?_, I.bucket_nodup (f0 + 1)⟩
      intro hmem
      have hj2 := I.bucket_mem (f0 + 1) k hmem
      rw [hk] at hj2
      exact hne10 (Option.some.inj hj2).symm
    · rw [if_neg h1]
      by_cases h2 : f = f0
      · rw [if_pos h2]
        exact (I.bucket_nodup f0).erase k
      · rw [if_neg h2]
        exact I.bucket_nodup f
  · -- min_le
    intro j g hj
    dsimp only at hj ⊢
    by_cases hc : ((s.freq_map f0).erase k).isEmpty = true ∧ f0 = s.min_frequency
    · rw [if_pos hc]
      by_cases hjk : j = k
      · subst hjk
        rw [hlkk] at hj
        cases hj
        exact le_refl _
      · rw [hlk j hjk] at hj
        have hge : s.min_frequency ≤ g := I.min_le j g hj
        have hgne : g ≠ f0 := by
          intro he; subst he
          have hmem := I.mem_bucket j g hj
          have : j ∈ (s.freq_map g).erase k := (List.mem_erase_of_ne hjk).2 hmem
          rw [List.isEmpty_iff.1 hc.1] at this
          exact List.not_mem_nil j this
        omega
    · rw [if_neg hc]
      by_cases hjk : j = k
      · subst hjk
        rw [hlkk] at hj
        cases hj
        exact le_trans (I.min_le _ f0 hk) (Nat.le_succ f0)
      · rw [hlk j hjk] at hj
        exact I.min_le j g hj
  · -- min_bucket
    intro _
    dsimp only
    have hsne : s.cache_map ≠ [] := by
      intro he
      rw [he] at hk
      exact Option.noConfusion hk
    by_cases hc : ((s.freq_map f0).erase k).isEmpty = true ∧ f0 = s.min_frequency
    · rw [if_pos hc, if_pos rfl]
      exact List.cons_ne_nil k _
    · rw [if_neg hc]
      by_cases hm1 : s.min_frequency = f0 + 1
      · rw [if_pos hm1]
        exact List.cons_ne_nil k _
      · rw [if_neg hm1]
        by_cases hm0 : s.min_frequency = f0
        · rw [if_pos hm0]
          have hnem : ¬ ((s.freq_map f0).erase k).isEmpty = true := by
            intro he
            exact hc ⟨he, hm0.symm⟩
          intro he
          rw [he] at hnem
          exact hnem rfl
        · rw [if_neg hm0]
          exact I.min_bucket hsne
  · -- touched
    intro j g hj
    dsimp only at hj
    by_cases hjk : j = k
    · subst hjk
      rw [lastTouch_append, if_pos rfl]
      rfl
    · rw [hlk j hjk] at hj
      rw [lastTouch_append, if_neg hjk]
      exact I.touched j g hj
  · -- recency
    intro f
    dsimp only
    by_cases h1 : f = f0 + 1
    · subst h1
      rw [if_pos rfl]
      refine List.pairwise_cons.2 ⟨?_, ?_⟩
      · intro b hb
        have hj := I.bucket_mem (f0 + 1) b hb
        have hbk : b ≠ k := by
          intro he; subst he
          rw [hk] at hj
          exact hne10 (Option.some.inj hj).symm
        exact hTlt b (f0 + 1) hj hbk
      · refine hTrans (f0 + 1) ?_
        intro j hmem he
        subst he
        have hj2 := I.bucket_mem (f0 + 1) j hmem
        rw [hk] at hj2
        exact hne10 (Option.some.inj hj2).symm
    · rw [if_neg h1]
      by_cases h2 : f = f0
      · rw [if_pos h2]
        have hsub : ((s.freq_map f0).erase k).Sublist (s.freq_map f0) :=
          List.erase_sublist k (s.freq_map f0)
        refine List.Pairwise.imp_of_mem ?_
          (List.Pairwise.sublist hsub (I.recency f0))
        intro a b ha hb hab
        have hak : a ≠ k := by
          intro he; subst he
          exact (I.bucket_nodup f0).not_mem_erase ha
        have hbk : b ≠ k := by
          intro he; subst he
          exact (I.bucket_nodup f0).not_mem_erase hb
        rw [ltT_append_ne seq a k hak, ltT_append_ne seq b k hbk]
        exact hab
      · rw [if_neg h2]
        refine hTrans f ?_
        intro j hmem he
        subst he
        have hj2 := I.bucket_mem f j hmem
        rw [hk] at hj2
        exact h2 (Option.some.inj hj2).symm

/-- A key that misses is in no frequency bucket. -/
theorem lfu_not_in_bucket (seq : List String) (s : LFUCache) (k : String)
    (I : LFUInv seq s) (hk : lookupFreq s.cache_map k = none) :
    ∀ f, k ∉ s.freq_map f := by
  intro f hm
  have h := I.bucket_mem f k hm
  rw [hk] at h
  exact Option.noConfusion h

/-- After appending a missing key to the history, any sub-bucket is still
ordered by strictly decreasing last-touch time. -/
theorem lfu_bucket_pairwise_append (seq : List String) (s : LFUCache)
    (k : String) (I : LFUInv seq s) (hk : lookupFreq s.cache_map k = none)
    (L : List String) (f : Nat) (hsub : L.Sublist (s.freq_map f)) :
    L.Pairwise (fun a b => ltT (seq ++ [k]) b < ltT (seq ++ [k]) a) := by
  refine List.Pairwise.imp_of_mem ?_ (List.Pairwise.sublist hsub (I.recency f))
  intro a b ha hb hab
  have hak : a ≠ k := by
    intro he; subst he
    exact lfu_not_in_bucket seq s a I hk f (hsub.subset ha)
  have hbk : b ≠ k := by
    intro he; subst he
    exact lfu_not_in_bucket seq s b I hk f (hsub.subset hb)
  rw [ltT_append_ne seq a k hak, ltT_append_ne seq b k hbk]
  exact hab

/-- Any key resident before an access is older (touched less recently)
than the freshly accessed key. -/
theorem lfu_bucket_lt_new (seq : List String) (s : LFUCache) (k : String)
    (I : LFUInv seq s) (hk : lookupFreq s.cache_map k = none)
    (j : String) (f : Nat) (hj : j ∈ s.freq_map f) :
    ltT (seq ++ [k]) j < ltT (seq ++ [k]) k := by
  have hjr := I.bucket_mem f j hj
  have hjk : j ≠ k := by
    intro he; subst he
    exact lfu_not_in_bucket seq s j I hk f hj
  rw [ltT_append_self, ltT_append_ne seq j k hjk]
  exact ltT_lt_length seq j (I.touched j f hjr)

theorem lfu_inv_miss_noevict (seq : List String) (s : LFUCache) (k : String)
    (I : LFUInv seq s) (hk : lookupFreq s.cache_map k = none)
    (hlen : ¬ s.capacity ≤ s.cache_map.length) :
    LFUInv (seq ++ [k]) (s.access k) := by
  rw [access_miss_noevict_eq s k hk hlen]
  have hknotmem : k ∉ s.cache_map.map Prod.fst := (lookupFreq_eq_none _ _).1 hk
  have hknb := lfu_not_in_bucket seq s k I hk
  have hlkk : lookupFreq ((k, 1) :: s.cache_map) k = some 1 := by
    simp [lookupFreq]
  have hlk : ∀ j, j ≠ k →
      lookupFreq ((k, 1) :: s.cache_map) j = lookupFreq s.cache_map j := by
    intro j hj
    have hkj : ¬ (k = j) := fun he => hj he.symm
    simp [lookupFreq, hkj]
  refine ⟨?_, I.cap_pos, ?_, ?_, ?_, ?_, ?_, ?_, ?_, ?_, ?_⟩
  · -- keys_nodup
    dsimp only
    rw [List.map_cons]
    exact List.nodup_cons.2 ⟨hknotmem, I.keys_nodup⟩
  · -- size_le
    dsimp only
    rw [List.length_cons]
    have := I.size_le
    omega
  · -- freq_pos
    intro j g hj
    dsimp only at hj
    by_cases hjk : j = k
    · subst hjk
      rw [hlkk] at hj
      cases hj
      omega
    · rw [hlk j hjk] at hj
      exact I.freq_pos j g hj
  · -- bucket_mem
    intro f j hmem
    dsimp only at hmem ⊢
    by_cases h1 : f = 1
    · rw [if_pos h1] at hmem
      rcases List.mem_cons.1 hmem with h | h
      · subst h
        rw [hlkk, h1]
      · have hjk : j ≠ k := fun he => hknb 1 (he ▸ h)
        rw [hlk j hjk, h1]
        exact I.bucket_mem 1 j h
    · rw [if_neg h1] at hmem
      have hjk : j ≠ k := fun he => hknb f (he ▸ hmem)
      rw [hlk j hjk]
      exact I.bucket_mem f j hmem
  · -- mem_bucket
    intro j g hj
    dsimp only at hj ⊢
    by_cases hjk : j = k
    · subst hjk
      rw [hlkk] at hj
      cases hj
      rw [if_pos rfl]
      exact List.mem_cons_self _ _
    · rw [hlk j hjk] at hj
      have hmem := I.mem_bucket j g hj
      by_cases h1 : g = 1
      · rw [if_pos h1]
        exact List.mem_cons_of_mem _ (h1 ▸ hmem)
      · rw [if_neg h1]
        exact hmem
  · -- bucket_nodup
    intro f
    dsimp only
    by_cases h1 : f = 1
    · rw [if_pos h1]
      exact List.nodup_cons.2 ⟨hknb 1, I.bucket_nodup 1⟩
    · rw [if_neg h1]
      exact I.bucket_nodup f
  · -- min_le
    intro j g hj
    dsimp only at hj ⊢
    by_cases hjk : j = k
    · subst hjk
      rw [hlkk] at hj
      cases hj
      exact le_refl 1
    · rw [hlk j hjk] at hj
      exact I.freq_pos j g hj
  · -- min_bucket
    intro _
    dsimp only
    rw [if_pos rfl]
    exact List.cons_ne_nil k _
  · -- touched
    intro j g hj
    dsimp only at hj
    by_cases hjk : j = k
    · subst hjk
      rw [lastTouch_append, if_pos rfl]
      rfl
    · rw [hlk j hjk] at hj
      rw [lastTouch_append, if_neg hjk]
      exact I.touched j g hj
  · -- recency
    intro f
    dsimp only
    by_cases h1 : f = 1
    · rw [if_pos h1]
      refine List.pairwise_cons.2 ⟨?_, ?_⟩
      · intro b hb
        exact lfu_bucket_lt_new seq s k I hk b 1 hb
      · exact lfu_bucket_pairwise_append seq s k I hk _ 1 (List.Sublist.refl _)
    · rw [if_neg h1]
      exact lfu_bucket_pairwise_append seq s k I hk _ f (List.Sublist.refl _)

theorem lfu_inv_miss_evict (seq : List String) (s : LFUCache) (k : String)
    (I : LFUInv seq s) (hk : lookupFreq s.cache_map k = none)
    (hlen : s.capacity ≤ s.cache_map.length) :
    LFUInv (seq ++ [k]) (s.access k) := by
  have hcmne : s.cache_map ≠ [] := by
    intro he
    rw [he] at hlen
    simp only [List.length_nil] at hlen
    have := I.cap_pos
    omega
  have hbne := I.min_bucket hcmne
  obtain ⟨l', e, hbe⟩ : ∃ l' e, s.freq_map s.min_frequency = l' ++ [e] := by
    rcases List.eq_nil_or_concat (s.freq_map s.min_frequency) with h | ⟨L, b, h⟩
    · exact absurd h hbne
    · exact ⟨L, b, by rw [h, List.concat_eq_append]⟩
  have hlast : (s.freq_map s.min_frequency).getLast? = some e := by
    rw [hbe]; exact List.getLast?_concat _
  rw [access_miss_evict_eq s k e hk hlen hlast]
  have hD : (s.freq_map s.min_frequency).dropLast = l' := by
    rw [hbe]; exact List.dropLast_concat
  have he_mem : e ∈ s.freq_map s.min_frequency := by
    rw [hbe]; exact List.mem_append_right _ (List.mem_singleton.2 rfl)
  have hlue : lookupFreq s.cache_map e = some s.min_frequency :=
    I.bucket_mem _ e he_mem
  have hek : e ≠ k := by
    intro he'
    rw [he', hk] at hlue
    exact Option.noConfusion hlue
  have hknotmem : k ∉ s.cache_map.map Prod.fst := (lookupFreq_eq_none _ _).1 hk
  have hknb := lfu_not_in_bucket seq s k I hk
  have he_nl : e ∉ l' := by
    have hnd := I.bucket_nodup s.min_frequency
    rw [hbe] at hnd
    intro hmem
    exact (List.nodup_append.1 hnd).2.2 hmem (List.mem_singleton.2 rfl)
  have hE0 : lookupFreq (eraseKey s.cache_map e) e = none :=
    lookupFreq_eraseKey_self s.cache_map e I.keys_nodup
  have hlkk : lookupFreq ((k, 1) :: eraseKey s.cache_map e) k = some 1 := by
    simp [lookupFreq]
  have hlk : ∀ j, j ≠ k →
      lookupFreq ((k, 1) :: eraseKey s.cache_map e) j =
        lookupFreq (eraseKey s.cache_map e) j := by
    intro j hj
    have hkj : ¬ (k = j) := fun he' => hj he'.symm
    simp [lookupFreq, hkj]
  have hlk2 : ∀ j, j ≠ k → j ≠ e →
      lookupFreq ((k, 1) :: eraseKey s.cache_map e) j =
        lookupFreq s.cache_map j :=
    fun j h1 h2 => (hlk j h1).trans (lookupFreq_eraseKey_ne s.cache_map e j h2)
  have hres : ∀ j g,
      lookupFreq ((k, 1) :: eraseKey s.cache_map e) j = some g →
      (j = k ∧ g = 1) ∨ (j ≠ k ∧ j ≠ e ∧ lookupFreq s.cache_map j = some g) := by
    intro j g hj
    by_cases hjk : j = k
    · rw [hjk, hlkk] at hj
      exact Or.inl ⟨hjk, (Option.some.inj hj).symm⟩
    · by_cases hje : j = e
      · exfalso
        rw [hje, hlk e hek, hE0] at hj
        exact Option.noConfusion hj
      · rw [hlk2 j hjk hje] at hj
        exact Or.inr ⟨hjk, hje, hj⟩
  refine ⟨?_, I.cap_pos, ?_, ?_, ?_, ?_, ?_, ?_, ?_, ?_, ?_⟩
  · -- keys_nodup
    dsimp only
    rw [List.map_cons]
    refine List.nodup_cons.2 ⟨?_, ?_⟩
    · intro hm
      exact hknotmem (((eraseKey_sublist s.cache_map e).map Prod.fst).subset hm)
    · exact List.Nodup.sublist ((eraseKey_sublist s.cache_map e).map Prod.fst)
        I.keys_nodup
  · -- size_le
    dsimp only
    rw [List.length_cons, eraseKey_length s.cache_map e (by rw [hlue]; rfl)]
    exact I.size_le
  · -- freq_pos
    intro j g hj
    dsimp only at hj
    rcases hres j g hj with ⟨_, hg⟩ | ⟨_, _, hj'⟩
    · omega
    · exact I.freq_pos j g hj'
  · -- bucket_mem
    intro f j hmem
    dsimp only at hmem ⊢
    by_cases h1 : f = 1
    · rw [if_pos h1] at hmem
      rcases List.mem_cons.1 hmem with h | h
      · rw [h, hlkk, h1]
      · by_cases hm1 : (1 : Nat) = s.min_frequency
        · rw [if_pos hm1, hD] at h
          have hjb : j ∈ s.freq_map s.min_frequency := by
            rw [hbe]; exact List.mem_append_left _ h
          have hje : j ≠ e := fun he' => he_nl (he' ▸ h)
          have hjk : j ≠ k := fun he' => hknb _ (he' ▸ hjb)
          rw [hlk2 j hjk hje, h1, hm1]
          exact I.bucket_mem _ j hjb
        · rw [if_neg hm1] at h
          have hjk : j ≠ k := fun he' => hknb 1 (he' ▸ h)
          have hjr := I.bucket_mem 1 j h
          have hje : j ≠ e := by
            intro he'
            rw [he', hlue] at hjr
            exact hm1 (Option.some.inj hjr).symm
          rw [hlk2 j hjk hje, h1]
          exact hjr
    · rw [if_neg h1] at hmem
      by_cases h2 : f = s.min_frequency
      · rw [if_pos h2, hD] at hmem
        have hjb : j ∈ s.freq_map s.min_frequency := by
          rw [hbe]; exact List.mem_append_left _ hmem
        have hje : j ≠ e := fun he' => he_nl (he' ▸ hmem)
        have hjk : j ≠ k := fun he' => hknb _ (he' ▸ hjb)
        rw [hlk2 j hjk hje, h2]
        exact I.bucket_mem _ j hjb
      · rw [if_neg h2] at hmem
        have hjk : j ≠ k := fun he' => hknb f (he' ▸ hmem)
        have hjr := I.bucket_mem f j hmem
        have hje : j ≠ e := by
          intro he'
          rw [he', hlue] at hjr
          exact h2 (Option.some.inj hjr).symm
        rw [hlk2 j hjk hje]
        exact hjr
  · -- mem_bucket
    intro j g hj
    dsimp only at hj ⊢
    rcases hres j g hj with ⟨hjk', hg⟩ | ⟨hjk, hje, hj'⟩
    · rw [hjk', hg, if_pos rfl]
      exact List.mem_cons_self _ _
    · have hmem := I.mem_bucket j g hj'
      by_cases h1 : g = 1
      · rw [if_pos h1]
        refine List.mem_cons_of_mem _ ?_
        by_cases hm1 : (1 : Nat) = s.min_frequency
        · rw [if_pos hm1, hD]
          rw [h1, hm1] at hmem
          rw [hbe] at hmem
          rcases List.mem_append.1 hmem with h | h
          · exact h
          · exact absurd (List.mem_singleton.1 h) hje
        · rw [if_neg hm1]
          exact h1 ▸ hmem
      · rw [if_neg h1]
        by_cases h2 : g = s.min_frequency
        · rw [if_pos h2, hD]
          have hmm : j ∈ s.freq_map s.min_frequency := h2 ▸ hmem
          rw [hbe] at hmm
          rcases List.mem_append.1 hmm with h | h
          · exact h
          · exact absurd (List.mem_singleton.1 h) hje
        · rw [if_neg h2]
          exact hmem
  · -- bucket_nodup
    intro f
    dsimp only
    by_cases h1 : f = 1
    · rw [if_pos h1]
      refine List.nodup_cons.2 ⟨?_, ?_⟩
      · by_cases hm1 : (1 : Nat) = s.min_frequency
        · rw [if_pos hm1, hD]
          intro hm
          exact hknb s.min_frequency
            (by rw [hbe]; exact List.mem_append_left _ hm)
        · rw [if_neg hm1]
          exact hknb 1
      · by_cases hm1 : (1 : Nat) = s.min_frequency
        · rw [if_pos hm1]
          exact List.Nodup.sublist (List.dropLast_sublist _) (I.bucket_nodup _)
        · rw [if_neg hm1]
          exact I.bucket_nodup 1
    · rw [if_neg h1]
      by_cases h2 : f = s.min_frequency
      · rw [if_pos h2]
        exact List.Nodup.sublist (List.dropLast_sublist _) (I.bucket_nodup _)
      · rw [if_neg h2]
        exact I.bucket_nodup f
  · -- min_le
    intro j g hj
    dsimp only at hj ⊢
    rcases hres j g hj with ⟨_, hg⟩ | ⟨_, _, hj'⟩
    · omega
    · exact I.freq_pos j g hj'
  · -- min_bucket
    intro _
    dsimp only
    rw [if_pos rfl]
    exact List.cons_ne_nil k _
  · -- touched
    intro j g hj
    dsimp only at hj
    by_cases hjk : j = k
    · rw [hjk, lastTouch_append, if_pos rfl]
      rfl
    · rw [lastTouch_append, if_neg hjk]
      rcases hres j g hj with ⟨hjk', _⟩ | ⟨_, _, hj'⟩
      · exact absurd hjk' hjk
      · exact I.touched j g hj'
  · -- recency
    intro f
    dsimp only
    by_cases h1 : f = 1
    · rw [if_pos h1]
      refine List.pairwise_cons.2 ⟨?_, ?_⟩
      · intro b hb
        by_cases hm1 : (1 : Nat) = s.min_frequency
        · rw [if_pos hm1] at hb
          exact lfu_bucket_lt_new seq s k I hk b s.min_frequency
            ((List.dropLast_sublist _).subset hb)
        · rw [if_neg hm1] at hb
          exact lfu_bucket_lt_new seq s k I hk b 1 hb
      · by_cases hm1 : (1 : Nat) = s.min_frequency
        · rw [if_pos hm1]
          exact lfu_bucket_pairwise_append seq s k I hk _ s.min_frequency
            (List.dropLast_sublist _)
        · rw [if_neg hm1]
          exact lfu_bucket_pairwise_append seq s k I hk _ 1 (List.Sublist.refl _)
    · rw [if_neg h1]
      by_cases h2 : f = s.min_frequency
      · rw [if_pos h2]
        exact lfu_bucket_pairwise_append seq s k I hk _ s.min_frequency
          (List.dropLast_sublist _)
      · rw [if_neg h2]
        exact lfu_bucket_pairwise_append seq s k I hk _ f (List.Sublist.refl _)

/-- Every access preserves the LFU invariant, extending the history. -/
theorem lfu_inv_step (seq : List String) (s : LFUCache) (k : String)
    (I : LFUInv seq s) : LFUInv (seq ++ [k]) (s.access k) := by
  rcases hk : lookupFreq s.cache_map k with _ | f0
  · by_cases hlen : s.capacity ≤ s.cache_map.length
    · exact lfu_inv_miss_evict seq s k I hk hlen
    · exact lfu_inv_miss_noevict seq s k I hk hlen
  · exact lfu_inv_hit seq s k f0 I hk

/-- The invariant holds of every run from the empty cache. -/
theorem lfu_inv_run (cap : Nat) (seq : List String) :
    LFUInv seq (runLFU cap seq) := by
  induction seq using List.reverseRecOn with
  | nil => exact lfu_inv_init cap
  | append_singleton l k ih =>
      have : runLFU cap (l ++ [k]) = (runLFU cap l).access k := by
        simp [runLFU, List.foldl_append]
      rw [this]
      exact lfu_inv_step l (runLFU cap l) k ih

/-- The fourth branch of `LFUCache::access`: a miss at capacity with an
empty minimum bucket (`back()` on an empty list is UB in C++; the model
skips the eviction).  Unreachable from reachable states. -/
theorem access_miss_evict_none_eq (s : LFUCache) (key : String)
    (h : lookupFreq s.cache_map key = none)
    (hlen : s.capacity ≤ s.cache_map.length)
    (hlast : (s.freq_map s.min_frequency).getLast? = none) :
    s.access key =
      { s with misses := s.misses + 1
               cache_map := (key, 1) :: s.cache_map
               freq_map := fun f =>
                 if f = 1 then key :: s.freq_map 1 else s.freq_map f
               min_frequency := 1 } := by
  simp only [LFUCache.access, h, ge_iff_le]
  rw [if_pos hlen, hlast]

/-! ## Counter and capacity helpers -/

theorem lru_access_capacity (s : LRUCache) (k : String) :
    (s.access k).capacity = s.capacity := by
  simp only [LRUCache.access]
  split <;> rfl

theorem fifo_access_capacity (s : FIFOCache) (k : String) :
    (s.access k).capacity = s.capacity := by
  simp only [FIFOCache.access]
  split <;> rfl

theorem lfu_access_capacity (s : LFUCache) (k : String) :
    (s.access k).capacity = s.capacity := by
  rcases hk : lookupFreq s.cache_map k with _ | f
  · by_cases hlen : s.capacity ≤ s.cache_map.length
    · cases hlast : (s.freq_map s.min_frequency).getLast? with
      | none => rw [access_miss_evict_none_eq s k hk hlen hlast]
      | some e => rw [access_miss_evict_eq s k e hk hlen hlast]
    · rw [access_miss_noevict_eq s k hk hlen]
  · rw [access_hit_eq s k f hk, update_frequency_eq]

theorem lru_counters (s : LRUCache) (k : String) :
    (((s.access k).hits = s.hits + 1 ∧ (s.access k).misses = s.misses) ↔
      k ∈ s.lru_list) ∧
    (((s.access k).misses = s.misses + 1 ∧ (s.access k).hits = s.hits) ↔
      k ∉ s.lru_list) ∧
    (s.access k).hits + (s.access k).misses = s.hits + s.misses + 1 := by
  by_cases hm : k ∈ s.lru_list <;> simp [LRUCache.access, hm] <;> omega

theorem fifo_counters (s : FIFOCache) (k : String) :
    (((s.access k).hits = s.hits + 1 ∧ (s.access k).misses = s.misses) ↔
      k ∈ s.fifo_queue) ∧
    (((s.access k).misses = s.misses + 1 ∧ (s.access k).hits = s.hits) ↔
      k ∉ s.fifo_queue) ∧
    (s.access k).hits + (s.access k).misses = s.hits + s.misses + 1 := by
  by_cases hm : k ∈ s.fifo_queue <;> simp [FIFOCache.access, hm] <;> omega

theorem lfu_counters (s : LFUCache) (k : String) :
    (((s.access k).hits = s.hits + 1 ∧ (s.access k).misses = s.misses) ↔
      (lookupFreq s.cache_map k).isSome = true) ∧
    (((s.access k).misses = s.misses + 1 ∧ (s.access k).hits = s.hits) ↔
      lookupFreq s.cache_map k = none) ∧
    (s.access k).hits + (s.access k).misses = s.hits + s.misses + 1 := by
  rcases hk : lookupFreq s.cache_map k with _ | f
  · have hs : ∀ x : LFUCache, x = s.access k →
        x.hits = s.hits ∧ x.misses = s.misses + 1 := by
      intro x hx
      by_cases hlen : s.capacity ≤ s.cache_map.length
      · cases hlast : (s.freq_map s.min_frequency).getLast? with
        | none =>
            rw [access_miss_evict_none_eq s k hk hlen hlast] at hx
            rw [hx]
            exact ⟨rfl, rfl⟩
        | some e =>
            rw [access_miss_evict_eq s k e hk hlen hlast] at hx
            rw [hx]
            exact ⟨rfl, rfl⟩
      · rw [access_miss_noevict_eq s k hk hlen] at hx
        rw [hx]
        exact ⟨rfl, rfl⟩
    obtain ⟨h1, h2⟩ := hs (s.access k) rfl
    refine ⟨?_, ?_, ?_⟩ <;> simp [h1, h2] <;> omega
  · rw [access_hit_eq s k f hk, update_frequency_eq]
    refine ⟨?_, ?_, ?_⟩ <;> simp [hk] <;> omega

/-! ## Length helpers (resident count) -/

theorem lru_access_length (s : LRUCache) (k : String) (hcap : 1 ≤ s.capacity)
    (hlen : s.lru_list.length ≤ s.capacity) :
    (s.access k).lru_list.length ≤ s.capacity := by
  simp only [LRUCache.access]
  split
  · rename_i h
    dsimp only
    rw [List.length_cons, List.length_erase_of_mem h]
    have := List.length_pos_of_mem h
    omega
  · dsimp only
    split
    · rename_i h2
      rw [List.length_cons]
      have hd := List.length_dropLast s.lru_list
      omega
    · rename_i h2
      rw [List.length_cons]
      simp only [ge_iff_le, not_le] at h2
      omega

theorem fifo_access_length (s : FIFOCache) (k : String) (hcap : 1 ≤ s.capacity)
    (hlen : s.fifo_queue.length ≤ s.capacity) :
    (s.access k).fifo_queue.length ≤ s.capacity := by
  simp only [FIFOCache.access]
  split
  · exact hlen
  · dsimp only
    split
    · rename_i h2
      rw [List.length_append, List.length_tail]
      simp only [List.length_singleton]
      have := h2
      simp only [ge_iff_le] at this
      omega
    · rename_i h2
      rw [List.length_append]
      simp only [List.length_singleton, ge_iff_le, not_le] at h2 ⊢
      omega

theorem runLRU_append (cap : Nat) (l : List String) (k : String) :
    runLRU cap (l ++ [k]) = (runLRU cap l).access k := by
  simp [runLRU, List.foldl_append]

theorem runFIFO_append (cap : Nat) (l : List String) (k : String) :
    runFIFO cap (l ++ [k]) = (runFIFO cap l).access k := by
  simp [runFIFO, List.foldl_append]

theorem runLFU_append (cap : Nat) (l : List String) (k : String) :
    runLFU cap (l ++ [k]) = (runLFU cap l).access k := by
  simp [runLFU, List.foldl_append]

theorem init_capacity_eq (cap : Nat) :
    (LRUCache.init cap).capacity = (if cap = 0 then 1 else cap) ∧
    (FIFOCache.init cap).capacity = (if cap = 0 then 1 else cap) ∧
    (LFUCache.init cap).capacity = (if cap = 0 then 1 else cap) :=
  ⟨rfl, rfl, rfl⟩

theorem corrected_capacity_pos (cap : Nat) :
    1 ≤ (if cap = 0 then 1 else cap) := by
  split <;> omega

theorem runLRU_capacity (cap : Nat) (seq : List String) :
    (runLRU cap seq).capacity = (if cap = 0 then 1 else cap) := by
  induction seq using List.reverseRecOn with
  | nil => rfl
  | append_singleton l k ih => rw [runLRU_append, lru_access_capacity, ih]

theorem runFIFO_capacity (cap : Nat) (seq : List String) :
    (runFIFO cap seq).capacity = (if cap = 0 then 1 else cap) := by
  induction seq using List.reverseRecOn with
  | nil => rfl
  | append_singleton l k ih => rw [runFIFO_append, fifo_access_capacity, ih]

theorem runLFU_capacity (cap : Nat) (seq : List String) :
    (runLFU cap seq).capacity = (if cap = 0 then 1 else cap) := by
  induction seq using List.reverseRecOn with
  | nil => rfl
  | append_singleton l k ih => rw [runLFU_append, lfu_access_capacity, ih]

theorem runLRU_length_le (cap : Nat) (seq : List String) :
    (runLRU cap seq).lru_list.length ≤ (runLRU cap seq).capacity := by
  induction seq using List.reverseRecOn with
  | nil => simp [runLRU, LRUCache.init]
  | append_singleton l k ih =>
      rw [runLRU_append, lru_access_capacity]
      refine lru_access_length (runLRU cap l) k ?_ ih
      rw [runLRU_capacity]
      exact corrected_capacity_pos cap

theorem runFIFO_length_le (cap : Nat) (seq : List String) :
    (runFIFO cap seq).fifo_queue.length ≤ (runFIFO cap seq).capacity := by
  induction seq using List.reverseRecOn with
  | nil => simp [runFIFO, FIFOCache.init]
  | append_singleton l k ih =>
      rw [runFIFO_append, fifo_access_capacity]
      refine fifo_access_length (runFIFO cap l) k ?_ ih
      rw [runFIFO_capacity]
      exact corrected_capacity_pos cap

/-! ## Trace helpers -/

theorem traceFromLRU_append (s : LRUCache) (l1 l2 : List String) :
    traceFromLRU s (l1 ++ l2) =
      traceFromLRU s l1 ++ traceFromLRU (l1.foldl LRUCache.access s) l2 := by
  induction l1 generalizing s with
  | nil => rfl
  | cons a tl ih => simp [traceFromLRU, ih]

theorem traceFromLRU_length (s : LRUCache) (l : List String) :
    (traceFromLRU s l).length = l.length := by
  induction l generalizing s with
  | nil => rfl
  | cons a tl ih => simp [traceFromLRU, ih]

theorem lru_self_mem (s : LRUCache) (k : String) :
    k ∈ (s.access k).lru_list := by
  by_cases h : k ∈ s.lru_list <;> simp [LRUCache.access, h]

/-! ## The specified properties -/

/-- C1, counterexample: on the demonstration scenario (capacity 4, sequence
`A B C D A E A B A C D E D C`), it is false that the LRU/LFU pair disagrees
on an access outcome or on the final resident set — the two policies
produce the identical hit/miss pattern and the same resident keys. -/
theorem c1_counterexample :
    ¬ (traceLRU 4 demoSeq ≠ traceLFU 4 demoSeq ∨
       sameKeySet (runLRU 4 demoSeq).lru_list (runLFU 4 demoSeq).residents
         = false) := by
  decide

/-- C1 (amended): on the demonstration scenario, FIFO differs from both LRU
and LFU in the hit/miss pattern and in the final resident set, but LRU and
LFU agree on both. -/
theorem c1_policy_divergence :
    traceLRU 4 demoSeq ≠ traceFIFO 4 demoSeq ∧
    traceFIFO 4 demoSeq ≠ traceLFU 4 demoSeq ∧
    sameKeySet (runLRU 4 demoSeq).lru_list (runFIFO 4 demoSeq).fifo_queue
      = false ∧
    sameKeySet (runFIFO 4 demoSeq).fifo_queue (runLFU 4 demoSeq).residents
      = false ∧
    traceLRU 4 demoSeq = traceLFU 4 demoSeq ∧
    sameKeySet (runLRU 4 demoSeq).lru_list (runLFU 4 demoSeq).residents
      = true := by
  refine ⟨by decide, by decide, by decide, by decide, by decide, by decide⟩

/-- The eviction contract of the LFU cache at a state reached by `seq`:
the key at the back of the minimum-frequency bucket is a resident whose
frequency is minimal among all residents, is the least-recently-touched
among residents tied at that frequency, and is removed by the access. -/
def LFUEvictOk (cap : Nat) (seq : List String) (k : String) : Prop :=
  ∃ e,
    ((runLFU cap seq).freq_map (runLFU cap seq).min_frequency).getLast?
      = some e ∧
    lookupFreq (runLFU cap seq).cache_map e
      = some (runLFU cap seq).min_frequency ∧
    (∀ r f, lookupFreq (runLFU cap seq).cache_map r = some f →
      (runLFU cap seq).min_frequency ≤ f) ∧
    (∀ r, lookupFreq (runLFU cap seq).cache_map r
        = some (runLFU cap seq).min_frequency → r ≠ e →
      ltT seq e < ltT seq r) ∧
    lookupFreq ((runLFU cap seq).access k).cache_map e = none

/-- C2: at every LFU eviction (a miss while the resident count is at
capacity), the evicted key's frequency is ≤ the frequency of every other
resident, and among residents tied at the minimum frequency it is the
least-recently-touched one. -/
theorem c2_lfu_eviction (cap : Nat) (seq : List String) (k : String)
    (hmiss : lookupFreq (runLFU cap seq).cache_map k = none)
    (hfull : (runLFU cap seq).capacity ≤ (runLFU cap seq).cache_map.length) :
    LFUEvictOk cap seq k := by
  have I := lfu_inv_run cap seq
  have hcmne : (runLFU cap seq).cache_map ≠ [] := by
    intro he
    rw [he] at hfull
    simp only [List.length_nil] at hfull
    have := I.cap_pos
    omega
  have hbne := I.min_bucket hcmne
  obtain ⟨l', e, hbe⟩ :
      ∃ l' e, (runLFU cap seq).freq_map (runLFU cap seq).min_frequency
        = l' ++ [e] := by
    rcases List.eq_nil_or_concat
        ((runLFU cap seq).freq_map (runLFU cap seq).min_frequency) with
      h | ⟨L, b, h⟩
    · exact absurd h hbne
    · exact ⟨L, b, by rw [h, List.concat_eq_append]⟩
  have hlast :
      ((runLFU cap seq).freq_map (runLFU cap seq).min_frequency).getLast?
        = some e := by
    rw [hbe]; exact List.getLast?_concat _
  have he_mem : e ∈ (runLFU cap seq).freq_map (runLFU cap seq).min_frequency := by
    rw [hbe]; exact List.mem_append_right _ (List.mem_singleton.2 rfl)
  have hlue := I.bucket_mem _ e he_mem
  have hek : e ≠ k := by
    intro he'
    rw [he', hmiss] at hlue
    exact Option.noConfusion hlue
  refine ⟨e, hlast, hlue, I.min_le, ?_, ?_⟩
  · intro r hr hre
    have hrb := I.mem_bucket r _ hr
    rw [hbe] at hrb
    rcases List.mem_append.1 hrb with h | h
    · have hp := I.recency (runLFU cap seq).min_frequency
      rw [hbe] at hp
      exact (List.pairwise_append.1 hp).2.2 r h e (List.mem_singleton.2 rfl)
    · exact absurd (List.mem_singleton.1 h) hre
  · rw [access_miss_evict_eq (runLFU cap seq) k e hmiss hfull hlast]
    dsimp only
    have hkj : ¬ (k = e) := fun he' => hek he'.symm
    simp only [lookupFreq, if_neg hkj]
    exact lookupFreq_eraseKey_self (runLFU cap seq).cache_map e I.keys_nodup

/-- C2 witness: a concrete eviction (capacity 2, history `A B`, miss on
`C`) satisfying the eviction contract. -/
theorem c2_witness : LFUEvictOk 2 ["A", "B"] "C" :=
  c2_lfu_eviction 2 ["A", "B"] "C" (by decide) (by decide)

/-- Joint consistency of the three LFU structures: every resident key is
in exactly one frequency bucket (exactly once), that bucket is the one its
directory entry names, and the minimum-frequency pointer names a non-empty
bucket whenever the cache is non-empty. -/
def LFUConsistent (s : LFUCache) : Prop :=
  (∀ k f, lookupFreq s.cache_map k = some f →
      (s.freq_map f).count k = 1 ∧ ∀ g, k ∈ s.freq_map g → g = f) ∧
  (s.cache_map ≠ [] → s.freq_map s.min_frequency ≠ [])

/-- C3: after every sequence of accesses from an empty LFU cache, the
directory, the frequency buckets and the minimum-frequency pointer are
jointly consistent. -/
theorem c3_lfu_consistency (cap : Nat) (seq : List String) :
    LFUConsistent (runLFU cap seq) := by
  have I := lfu_inv_run cap seq
  refine ⟨?_, I.min_bucket⟩
  intro k f hk
  refine ⟨List.count_eq_one_of_mem (I.bucket_nodup f) (I.mem_bucket k f hk), ?_⟩
  intro g hg
  have hb := I.bucket_mem g k hg
  rw [hk] at hb
  exact (Option.some.inj hb).symm

/-- C3 witness: the consistency invariant at a concrete reachable state. -/
theorem c3_witness : LFUConsistent (runLFU 2 ["A", "B", "A", "C"]) :=
  c3_lfu_consistency 2 ["A", "B", "A", "C"]

/-- C4: for every policy, every requested capacity and every input
sequence, the resident count never exceeds the (corrected) capacity, which
equals the requested capacity except that zero is raised to one. -/
theorem c4_resident_count_le_capacity (cap : Nat) (seq : List String) :
    (runLRU cap seq).lru_list.length ≤ (runLRU cap seq).capacity ∧
    (runFIFO cap seq).fifo_queue.length ≤ (runFIFO cap seq).capacity ∧
    (runLFU cap seq).cache_map.length ≤ (runLFU cap seq).capacity ∧
    (runLRU cap seq).capacity = (if cap = 0 then 1 else cap) ∧
    (runFIFO cap seq).capacity = (if cap = 0 then 1 else cap) ∧
    (runLFU cap seq).capacity = (if cap = 0 then 1 else cap) :=
  ⟨runLRU_length_le cap seq, runFIFO_length_le cap seq,
   (lfu_inv_run cap seq).size_le, runLRU_capacity cap seq,
   runFIFO_capacity cap seq, runLFU_capacity cap seq⟩

/-- C5: for each policy, an access is counted as a hit (hits incremented,
misses unchanged) exactly when the key was resident immediately before it,
as a miss (misses incremented, hits unchanged) exactly when it was not,
and each access increments exactly one of the two counters. -/
theorem c5_hit_iff_resident (s : LRUCache) (t : FIFOCache) (u : LFUCache)
    (k : String) :
    ((((s.access k).hits = s.hits + 1 ∧ (s.access k).misses = s.misses) ↔
        k ∈ s.lru_list) ∧
     (((s.access k).misses = s.misses + 1 ∧ (s.access k).hits = s.hits) ↔
        k ∉ s.lru_list) ∧
     (s.access k).hits + (s.access k).misses = s.hits + s.misses + 1) ∧
    ((((t.access k).hits = t.hits + 1 ∧ (t.access k).misses = t.misses) ↔
        k ∈ t.fifo_queue) ∧
     (((t.access k).misses = t.misses + 1 ∧ (t.access k).hits = t.hits) ↔
        k ∉ t.fifo_queue) ∧
     (t.access k).hits + (t.access k).misses = t.hits + t.misses + 1) ∧
    ((((u.access k).hits = u.hits + 1 ∧ (u.access k).misses = u.misses) ↔
        (lookupFreq u.cache_map k).isSome = true) ∧
     (((u.access k).misses = u.misses + 1 ∧ (u.access k).hits = u.hits) ↔
        lookupFreq u.cache_map k = none) ∧
     (u.access k).hits + (u.access k).misses = u.hits + u.misses + 1) :=
  ⟨lru_counters s k, fifo_counters t k, lfu_counters u k⟩

/-- C6: a FIFO hit causes no structural change — the queue (insertion
order and membership) is unchanged, so the next eviction victim (the
queue's head) is unchanged. -/
theorem c6_fifo_hit_frame (s : FIFOCache) (k : String)
    (h : k ∈ s.fifo_queue) :
    (s.access k).fifo_queue = s.fifo_queue ∧
    (s.access k).fifo_queue.head? = s.fifo_queue.head? ∧
    (s.access k).capacity = s.capacity := by
  simp [FIFOCache.access, h]

/-- C6 witness: a concrete FIFO hit leaving the queue untouched. -/
theorem c6_witness :
    ((runFIFO 2 ["A", "B"]).access "A").fifo_queue
      = (runFIFO 2 ["A", "B"]).fifo_queue ∧
    ((runFIFO 2 ["A", "B"]).access "A").fifo_queue.head?
      = (runFIFO 2 ["A", "B"]).fifo_queue.head? ∧
    ((runFIFO 2 ["A", "B"]).access "A").capacity
      = (runFIFO 2 ["A", "B"]).capacity :=
  c6_fifo_hit_frame (runFIFO 2 ["A", "B"]) "A" (by decide)

/-- C7: in an LRU run with capacity ≥ 2, whenever two consecutive accesses
name the same key, the second of the two is a hit. -/
theorem c7_lru_repeat_hit (cap : Nat) (pre post : List String) (k : String)
    (hcap : 2 ≤ cap) :
    (traceLRU cap (pre ++ k :: k :: post))[pre.length + 1]? = some true := by
  unfold traceLRU
  have hsplit : pre ++ k :: k :: post = pre ++ ([k] ++ ([k] ++ post)) := by
    simp
  rw [hsplit, traceFromLRU_append]
  rw [List.getElem?_append_right (by rw [traceFromLRU_length]; omega)]
  rw [traceFromLRU_length]
  have hidx : pre.length + 1 - pre.length = 1 := by omega
  rw [hidx]
  have hexp : traceFromLRU (pre.foldl LRUCache.access (LRUCache.init cap))
      ([k] ++ ([k] ++ post)) =
      decide (k ∈ (pre.foldl LRUCache.access (LRUCache.init cap)).lru_list) ::
      decide (k ∈ ((pre.foldl LRUCache.access (LRUCache.init cap)).access k).lru_list) ::
      traceFromLRU (((pre.foldl LRUCache.access (LRUCache.init cap)).access k).access k)
        (post) := rfl
  rw [hexp]
  simp [lru_self_mem]

/-- C7 witness: the repeated key `B` at positions 1 and 2 of a concrete
run is a hit the second time. -/
theorem c7_witness :
    (traceLRU 4 (["A"] ++ "B" :: "B" :: ["C"]))[2]? = some true :=
  c7_lru_repeat_hit 4 ["A"] ["C"] "B" (by decide)

/-- The hit-rate computation of `print_stats`, over exact rationals: the
guarded division `hits / (hits+misses) * 100`, and `0` when there have
been no accesses. -/
def hit_rate (hits misses : Nat) : ℚ :=
  if 0 < hits + misses then (hits : ℚ) / ((hits + misses : Nat) : ℚ) * 100
  else 0

/-- `LRUCache::print_stats`' hit-rate value. -/
def LRUCache.hit_rate (s : LRUCache) : ℚ := CacheSim.hit_rate s.hits s.misses

/-- `FIFOCache::print_stats`' hit-rate value. -/
def FIFOCache.hit_rate (s : FIFOCache) : ℚ := CacheSim.hit_rate s.hits s.misses

/-- `LFUCache::print_stats`' hit-rate value. -/
def LFUCache.hit_rate (s : LFUCache) : ℚ := CacheSim.hit_rate s.hits s.misses

theorem hit_rate_spec (h m : Nat) :
    (0 < h + m → hit_rate h m * ((h + m : Nat) : ℚ) = (h : ℚ) * 100) ∧
    (h + m = 0 → hit_rate h m = 0) ∧
    0 ≤ hit_rate h m ∧ hit_rate h m ≤ 100 := by
  by_cases hpos : 0 < h + m
  · have hne : ((h + m : Nat) : ℚ) ≠ 0 := by
      rw [Nat.cast_ne_zero]
      omega
    have hnn : (0 : ℚ) ≤ ((h + m : Nat) : ℚ) := Nat.cast_nonneg _
    have hhle : (h : ℚ) ≤ ((h + m : Nat) : ℚ) := by
      rw [Nat.cast_le]
      omega
    refine ⟨?_, ?_, ?_, ?_⟩
    · intro _
      have hne2 : (h : ℚ) + (m : ℚ) ≠ 0 := by push_cast at hne; exact hne
      rw [hit_rate, if_pos hpos]
      push_cast
      rw [mul_right_comm, div_mul_cancel₀ _ hne2]
    · intro h0
      omega
    · rw [hit_rate, if_pos hpos]
      positivity
    · rw [hit_rate, if_pos hpos]
      have hdiv : (h : ℚ) / ((h + m : Nat) : ℚ) ≤ 1 := by
        rw [div_le_one (lt_of_le_of_ne hnn (Ne.symm hne))]
        exact hhle
      calc (h : ℚ) / ((h + m : Nat) : ℚ) * 100 ≤ 1 * 100 :=
            mul_le_mul_of_nonneg_right hdiv (by norm_num)
        _ = 100 := by norm_num
  · have h0 : h + m = 0 := by omega
    refine ⟨fun hc => absurd hc hpos, fun _ => ?_, ?_, ?_⟩ <;>
      simp [hit_rate, hpos]

/-- C8: for every state of every policy, the reported hit rate equals
hits/(hits+misses)·100 when there has been at least one access (stated
multiplicatively, so the division is genuine) and is the defined value 0
when there has been none; it is always a well-defined rational between 0
and 100 — no division by zero occurs. -/
theorem c8_hit_rate (s : LRUCache) (t : FIFOCache) (u : LFUCache) :
    ((0 < s.hits + s.misses →
        s.hit_rate * ((s.hits + s.misses : Nat) : ℚ) = (s.hits : ℚ) * 100) ∧
     (s.hits + s.misses = 0 → s.hit_rate = 0) ∧
     0 ≤ s.hit_rate ∧ s.hit_rate ≤ 100) ∧
    ((0 < t.hits + t.misses →
        t.hit_rate * ((t.hits + t.misses : Nat) : ℚ) = (t.hits : ℚ) * 100) ∧
     (t.hits + t.misses = 0 → t.hit_rate = 0) ∧
     0 ≤ t.hit_rate ∧ t.hit_rate ≤ 100) ∧
    ((0 < u.hits + u.misses →
        u.hit_rate * ((u.hits + u.misses : Nat) : ℚ) = (u.hits : ℚ) * 100) ∧
     (u.hits + u.misses = 0 → u.hit_rate = 0) ∧
     0 ≤ u.hit_rate ∧ u.hit_rate ≤ 100) :=
  ⟨hit_rate_spec s.hits s.misses, hit_rate_spec t.hits t.misses,
   hit_rate_spec u.hits u.misses⟩

/-- C8 witness: the hit-rate equation at a concrete state with one miss,
and the zero case at the empty state. -/
theorem c8_witness :
    (runLRU 1 ["A"]).hit_rate *
        (((runLRU 1 ["A"]).hits + (runLRU 1 ["A"]).misses : Nat) : ℚ)
      = ((runLRU 1 ["A"]).hits : ℚ) * 100 ∧
    (runFIFO 1 []).hit_rate = 0 :=
  ⟨(c8_hit_rate (runLRU 1 ["A"]) (runFIFO 1 ["A"]) (runLFU 1 ["A"])).1.1
      (by decide),
   (c8_hit_rate (runLRU 1 []) (runFIFO 1 []) (runLFU 1 [])).2.1.2.1
      (by decide)⟩

/-- C9: a requested capacity of zero is silently corrected to one at
construction, so every policy constructed with capacity 0 is the same
state as one constructed with capacity 1, and behaves identically on every
input sequence; construction always succeeds (it is total). -/
theorem c9_zero_capacity (seq : List String) :
    LRUCache.init 0 = LRUCache.init 1 ∧
    FIFOCache.init 0 = FIFOCache.init 1 ∧
    LFUCache.init 0 = LFUCache.init 1 ∧
    runLRU 0 seq = runLRU 1 seq ∧
    runFIFO 0 seq = runFIFO 1 seq ∧
    runLFU 0 seq = runLFU 1 seq :=
  ⟨rfl, rfl, rfl, rfl, rfl, rfl⟩

/-- C10: for every policy, a hit leaves the set of resident keys
unchanged — no key is inserted or evicted, even though LRU and LFU
restructure their internal order. -/
theorem c10_hit_preserves_residents (s : LRUCache) (t : FIFOCache)
    (u : LFUCache) (k : String) (hs : k ∈ s.lru_list)
    (ht : k ∈ t.fifo_queue) (hu : (lookupFreq u.cache_map k).isSome = true) :
    (∀ j, j ∈ (s.access k).lru_list ↔ j ∈ s.lru_list) ∧
    (∀ j, j ∈ (t.access k).fifo_queue ↔ j ∈ t.fifo_queue) ∧
    (∀ j, (lookupFreq (u.access k).cache_map j).isSome =
          (lookupFreq u.cache_map j).isSome) := by
  refine ⟨?_, ?_, ?_⟩
  · intro j
    simp only [LRUCache.access, if_pos hs]
    by_cases hjk : j = k
    · subst hjk
      simp [hs]
    · simp only [List.mem_cons, List.mem_erase_of_ne hjk]
      constructor
      · rintro (h | h)
        · exact absurd h hjk
        · exact h
      · exact Or.inr
  · intro j
    simp [FIFOCache.access, ht]
  · intro j
    obtain ⟨f, hf⟩ := Option.isSome_iff_exists.1 hu
    rw [access_hit_eq u k f hf, update_frequency_eq]
    dsimp only
    by_cases hjk : j = k
    · subst hjk
      rw [lookupFreq_setFreq_self u.cache_map j (f + 1) f hf, hf]
      rfl
    · rw [lookupFreq_setFreq_ne u.cache_map k j (f + 1) hjk]

/-- C10 witness: a concrete hit in each policy leaving the resident set
unchanged. -/
theorem c10_witness :
    (∀ j, j ∈ ((runLRU 2 ["A", "B"]).access "A").lru_list ↔
          j ∈ (runLRU 2 ["A", "B"]).lru_list) ∧
    (∀ j, j ∈ ((runFIFO 2 ["A", "B"]).access "A").fifo_queue ↔
          j ∈ (runFIFO 2 ["A", "B"]).fifo_queue) ∧
    (∀ j, (lookupFreq ((runLFU 2 ["A", "B"]).access "A").cache_map j).isSome =
          (lookupFreq (runLFU 2 ["A", "B"]).cache_map j).isSome) :=
  c10_hit_preserves_residents (runLRU 2 ["A", "B"]) (runFIFO 2 ["A", "B"])
    (runLFU 2 ["A", "B"]) "A" (by decide) (by decide) (by decide)

end CacheSim
